import Mathlib

/-!
Shallow embedding of the client-side search/filter/highlight engine of
`src/web/src/pages/Home.jsx` (moldova-customs-tariff-browser).

JavaScript strings are modeled as lists of Unicode code points (`List Nat`);
all characters appearing in the data and queries are in the BMP, so code-unit
offsets and code-point offsets coincide.
-/

/-- A JavaScript string, as a list of Unicode code points. -/
abbrev Str := List Nat

/-- Code points of a Lean string literal, used to write concrete examples. -/
def s2l (s : String) : Str := s.toList.map Char.toNat

/-- JS whitespace class (the subset relevant to this data): TAB LF VT FF CR SP NBSP. -/
def isWsChar (c : Nat) : Bool := c = 9 || c = 10 || c = 11 || c = 12 || c = 13 || c = 32 || c = 160

/-- Model of `String.prototype.trim()`. -/
def jsTrim (s : Str) : Str :=
  ((s.dropWhile isWsChar).reverse.dropWhile isWsChar).reverse

/-- Accumulator pass for `splitWs`. -/
def splitWsAux : Str → Str → List Str
  | [], cur => if cur = [] then [] else [cur.reverse]
  | c :: rest, cur =>
    if isWsChar c then
      (if cur = [] then splitWsAux rest [] else cur.reverse :: splitWsAux rest [])
    else splitWsAux rest (c :: cur)

/-- Model of `s.split(/\s+/)` for the trimmed strings this code applies it to
(maximal whitespace runs separate the words; no empty fragments arise on
trimmed input, and the one caller that could pass an untrimmed string
filters empty fragments out anyway). -/
def splitWs (s : Str) : List Str := splitWsAux s []

/-- Model of `String.prototype.toLowerCase()`, restricted to ASCII plus the
Romanian/diacritic letters that occur in this data set; all other code
points are left unchanged. -/
def jsToLower (c : Nat) : Nat :=
  if 65 ≤ c ∧ c ≤ 90 then c + 32
  else if c = 0x102 then 0x103      -- Ă → ă
  else if c = 0xC2 then 0xE2        -- Â → â
  else if c = 0xCE then 0xEE        -- Î → î
  else if c = 0x15E then 0x15F      -- Ş → ş
  else if c = 0x162 then 0x163      -- Ţ → ţ
  else if c = 0x218 then 0x219      -- Ș → ș
  else if c = 0x21A then 0x21B      -- Ț → ț
  else c

/-- Model of `String.prototype.normalize('NFD')` per code point, for the code points
occurring in this data set (base letter followed by a combining mark);
other code points decompose to themselves. -/
def nfdChar (c : Nat) : List Nat :=
  if c = 0x103 then [97, 0x306]       -- ă = a + breve
  else if c = 0xE2 then [97, 0x302]   -- â = a + circumflex
  else if c = 0xEE then [105, 0x302]  -- î = i + circumflex
  else if c = 0x15F then [115, 0x327] -- ş = s + cedilla
  else if c = 0x163 then [116, 0x327] -- ţ = t + cedilla
  else if c = 0x219 then [115, 0x326] -- ș = s + comma below
  else if c = 0x21B then [116, 0x326] -- ț = t + comma below
  else [c]

/-- Membership in the range `[̀-ͯ]` of combining marks. -/
def isCombining (c : Nat) : Bool := 0x300 ≤ c ∧ c ≤ 0x36F

/-- The `normalizeText` helper from Home.jsx: lowercase, NFD-decompose, strip
combining marks in `[̀-ͯ]`. -/
def normalizeText (text : Str) : Str :=
  ((text.map jsToLower).flatMap nfdChar).filter (fun c => !isCombining c)

/-- The `normalizeText` helper as actually invokable in JS, where the argument may be
`null`; `null.toLowerCase()` raises a TypeError, modeled as `Except.error`. -/
def normalizeTextJS (text : Option Str) : Except Unit Str :=
  match text with
  | none => .error ()
  | some s => .ok (normalizeText s)

/-- Does the first string start with the second one? -/
def strStartsWith : Str → Str → Bool
  | _, [] => true
  | [], _ :: _ => false
  | c :: cs, d :: ds => c == d && strStartsWith cs ds

/-- Model of `String.prototype.endsWith`. -/
def strEndsWith (s pat : Str) : Bool := strStartsWith s.reverse pat.reverse

/-- Scan the suffixes of `l` for an occurrence of `needle`; `base` is the
absolute index of the head of `l`. -/
def findSub : Str → Str → Nat → Option Nat
  | [], needle, base => if strStartsWith [] needle then some base else none
  | c :: t, needle, base =>
    if strStartsWith (c :: t) needle then some base else findSub t needle (base + 1)

/-- Model of `String.prototype.indexOf(needle, start)` for `start ≥ 0`, returning
`none` for -1; for an empty needle JS returns `min start length`. -/
def jsIndexOfFrom (hay needle : Str) (start : Nat) : Option Nat :=
  if needle = [] then some (min start hay.length)
  else findSub (hay.drop start) needle start

/-- Model of `String.prototype.includes`. -/
def jsIncludes (hay needle : Str) : Bool := (jsIndexOfFrom hay needle 0).isSome

/-- Model of `s.replace(/\s/g, '')`. -/
def removeWs (s : Str) : Str := s.filter (fun c => !isWsChar c)

/-- One decimal digit, `[0-9]`. -/
def isDigitCp (c : Nat) : Bool := 48 ≤ c ∧ c ≤ 57

/-- Model of the regex test `/^[0-9]+$/.test s`. -/
def isAllDigits (s : Str) : Bool := !(s = []) && s.all isDigitCp

-- Basic sanity examples (kept as compiled facts of the embedding).
example : normalizeText (s2l "Cătălina") = s2l "catalina" := by decide
example : jsTrim (s2l "  ab  ") = s2l "ab" := by decide
example : splitWs (s2l "wood bed") = [s2l "wood", s2l "bed"] := by decide
example : jsIncludes (s2l "010121000") (s2l "010121") = true := by decide

/-! ## Data model: the nested tree and the flattened records -/

/-- One `(countryId, rateString)` entry of `tax_info.tax_values`. -/
structure TaxValue where
  country : Int
  tax_value : Str
deriving DecidableEq

/-- The optional `tax_info` object on a tree node. -/
structure TaxInfoJs where
  vat : Option Str
  excise : Option Str
  tax_values : Option (List TaxValue)
deriving DecidableEq

/-- A node of the nested category tree delivered by the fetch; every field
other than `id` may be absent (`Option`/`none` models a missing JSON field;
absent `children` behaves exactly like an empty child list, so children are
modeled as a plain list). -/
inductive CategoryNode : Type where
  | mk (id : Int) (nc : Option Str) (name_ro name_ru name_en : Option Str)
       (import_acts : Option (List Str)) (tax_info : Option TaxInfoJs)
       (children : List CategoryNode)

def CategoryNode.id : CategoryNode → Int
  | .mk i _ _ _ _ _ _ _ => i

def CategoryNode.children : CategoryNode → List CategoryNode
  | .mk _ _ _ _ _ _ _ ch => ch

/-- One row of the flattened data, as pushed by `flatten` in Home.jsx. -/
structure FlatRecord where
  id : Int
  nc : Str
  name_ro : Str
  name_ru : Str
  name_en : Str
  import_acts : List Str
  level : Nat
  parentIds : List Int
  indexInTree : Nat
  vat : Str
  excise : Str
  tax_values : List TaxValue
deriving DecidableEq

/-- The object literal pushed onto `flattened` for one node
(`node.tax_info || {}` and the `|| ''` / `|| []` field defaults). -/
def mkFlat (node : CategoryNode) (level : Nat) (parentIds : List Int)
    (currentIndex : Nat) : FlatRecord :=
  match node with
  | .mk i nc ro ru en acts taxo _ =>
    let taxInfo := taxo.getD ⟨none, none, none⟩
    { id := i
      nc := nc.getD []
      name_ro := ro.getD []
      name_ru := ru.getD []
      name_en := en.getD []
      import_acts := acts.getD []
      level := level
      parentIds := parentIds
      indexInTree := currentIndex
      vat := taxInfo.vat.getD []
      excise := taxInfo.excise.getD []
      tax_values := taxInfo.tax_values.getD [] }

/-- The recursive `flatten(nodes, level, parentIds)` helper; the mutable
`flattened` array is threaded as the accumulator `acc`, so
`currentIndex = flattened.length` becomes `acc.length`. -/
def flattenList (nodes : List CategoryNode) (level : Nat) (parentIds : List Int)
    (acc : List FlatRecord) : List FlatRecord :=
  match nodes with
  | [] => acc
  | node :: rest =>
    let acc1 := acc ++ [mkFlat node level parentIds acc.length]
    let acc2 :=
      if node.children.length > 0 then
        flattenList node.children (level + 1) (parentIds ++ [node.id]) acc1
      else acc1
    flattenList rest level parentIds acc2
termination_by sizeOf nodes
decreasing_by
  · have h : sizeOf node.children < sizeOf node := by
      cases node with
      | mk i nc ro ru en acts taxo ch => simp [CategoryNode.children]
    simp
    omega
  · simp

/-- Top-level `flatten(data)` — the flattening of the whole tree. -/
def flattenTree (data : List CategoryNode) : List FlatRecord :=
  flattenList data 0 [] []

/-! ## Context expansion and the search engine -/

/-- Model of `Set.prototype.add` on a set of ids represented as a duplicate-free list
(only membership is ever observed). -/
def addToSet (s : List Int) (x : Int) : List Int :=
  if s.contains x then s else x :: s

/-- Stable insertion into a list sorted by a numeric key. -/
def insertByKey {α : Type} (key : α → Nat) (r : α) : List α → List α
  | [] => [r]
  | x :: xs => if key r ≤ key x then r :: x :: xs else x :: insertByKey key r xs

/-- Model of `Array.prototype.sort` with a `(a, b) => key(a) - key(b)` comparator —
a stable sort by the key, modeled as insertion sort. -/
def sortByKey {α : Type} (key : α → Nat) (l : List α) : List α :=
  l.foldr (insertByKey key) []

/-- The call `.sort((a, b) => a.indexInTree - b.indexInTree)`. -/
def sortByIndexInTree (l : List FlatRecord) : List FlatRecord :=
  sortByKey (fun r => r.indexInTree) l

/-- The helper `includeParentsAndChildren(matchedItems)` from Home.jsx: collect the ids
of each matched item, of all its `parentIds`, and of every record whose
`parentIds` contains the matched id; then keep exactly the records of
`flatData` whose id was collected, sorted by original tree order. -/
def includeParentsAndChildren (flatData matchedItems : List FlatRecord) : List FlatRecord :=
  if matchedItems.isEmpty then []
  else
    let itemsToShow := matchedItems.foldl (fun s item =>
      let s1 := addToSet s item.id
      let s2 := item.parentIds.foldl addToSet s1
      flatData.foldl (fun s pc =>
        if pc.parentIds.contains item.id then addToSet s pc.id else s) s2) []
    sortByIndexInTree (flatData.filter (fun item => itemsToShow.contains item.id))

/-- The `itemsToShow` set of `includeParentsAndChildren`, as a standalone
function (definitionally the `let`-bound fold inside it). -/
def itemsToShowOf (flatData matchedItems : List FlatRecord) : List Int :=
  matchedItems.foldl (fun s item =>
    let s1 := addToSet s item.id
    let s2 := item.parentIds.foldl addToSet s1
    flatData.foldl (fun s pc =>
      if pc.parentIds.contains item.id then addToSet s pc.id else s) s2) []

/-- The predicate of the exact-phrase filter lambda. -/
def exactMatch (exactNormalized : Str) (item : FlatRecord) : Bool :=
  jsIncludes (normalizeText item.name_ro) exactNormalized ||
  jsIncludes (normalizeText item.name_ru) exactNormalized ||
  jsIncludes (normalizeText item.name_en) exactNormalized ||
  jsIncludes (normalizeText item.nc) exactNormalized

/-- The predicate of the wildcard filter lambda. -/
def wildcardMatch (searchNormalized : Str) (item : FlatRecord) : Bool :=
  strStartsWith (normalizeText item.nc) searchNormalized

/-- The predicate of the numeric filter lambda. -/
def numericMatch (searchValueNoSpaces : Str) (item : FlatRecord) : Bool :=
  jsIncludes item.nc searchValueNoSpaces

/-- The predicate of the multi-word fallback filter lambda. -/
def fuzzyMatch (searchWords : List Str) (item : FlatRecord) : Bool :=
  searchWords.all (fun word =>
    jsIncludes (normalizeText item.name_ro) word ||
    jsIncludes (normalizeText item.name_ru) word ||
    jsIncludes (normalizeText item.name_en) word)

/-- The `filteredData` memo from Home.jsx: mode classification and
filtering of the flattened data for one debounced query. -/
def filteredData (flatData : List FlatRecord) (debouncedFilter : Str) : List FlatRecord :=
  if jsTrim debouncedFilter = [] then flatData
  else
    let searchTrimmed := jsTrim debouncedFilter
    let isExactSearch := strStartsWith searchTrimmed [34] && strEndsWith searchTrimmed [34]
    if isExactSearch then
      -- `searchTrimmed.slice(1, -1)`
      let exactValue := (searchTrimmed.drop 1).dropLast
      let exactNormalized := normalizeText exactValue
      includeParentsAndChildren flatData (flatData.filter (exactMatch exactNormalized))
    else
      let isWildcard := strEndsWith searchTrimmed [42]
      let searchValue := if isWildcard then searchTrimmed.dropLast else searchTrimmed
      if isWildcard then
        let searchNormalized := removeWs (normalizeText searchValue)
        includeParentsAndChildren flatData (flatData.filter (wildcardMatch searchNormalized))
      else
        let searchValueNoSpaces := removeWs searchValue
        if isAllDigits searchValueNoSpaces then
          includeParentsAndChildren flatData (flatData.filter (numericMatch searchValueNoSpaces))
        else
          let searchWords := (splitWs (jsTrim searchValue)).map normalizeText
          includeParentsAndChildren flatData (flatData.filter (fuzzyMatch searchWords))

/-! ## The highlighter -/

/-- One output span of `highlightText`: a slice of the original text, either
plain (`isMatch = false`) or wrapped in a `<mark>` (`isMatch = true`). -/
structure Span where
  text : Str
  isMatch : Bool
deriving DecidableEq

/-- Model of `text.substring(a, b)` (JS clamps both ends to the length and swaps the
arguments when `a > b`). -/
def jsSubstring (text : Str) (a b : Nat) : Str :=
  let a' := min a text.length
  let b' := min b text.length
  if a' ≤ b' then (text.take b').drop a' else (text.take a').drop b'

/-- The `while (true) { indexOf … startIndex = index + 1 }` loop collecting
the (start, end) ranges of one search word.  The JS loop terminates iff it
ever sees `indexOf` return -1: for a non-empty word the start index
strictly increases and stays below the length, so `ntext.length + 1`
iterations always suffice (the fuel the caller passes, proved sufficient in
`collectFrom_isSome_of_ne_nil`); for a word whose normalization is empty,
`indexOf` of the empty string never returns -1 and the loop runs forever,
which the model reports as `none` (the fuel runs out, and
`collectFrom_none_of_nil_needle` shows it runs out at every fuel). -/
def collectFrom (ntext nword : Str) : Nat → Nat → Option (List (Nat × Nat))
  | _, 0 => none
  | startIndex, fuel + 1 =>
    match jsIndexOfFrom ntext nword startIndex with
    | none => some []
    | some i =>
      (collectFrom ntext nword (i + 1) fuel).map (fun rest => (i, i + nword.length) :: rest)

/-- One `searchWords.forEach` step of `highlightText`: extend the ranges
collected so far with all the ranges of one more word, propagating
non-termination of the per-word loop. -/
def collectStep (ntext : Str) (acc : Option (List (Nat × Nat))) (word : Str) :
    Option (List (Nat × Nat)) :=
  acc.bind (fun ms =>
    (collectFrom ntext (normalizeText word) 0 (ntext.length + 1)).map
      (fun more => ms ++ more))

/-- The call `matches.sort((a, b) => a.start - b.start)` — a stable sort by start
offset. -/
def sortRangesByStart (l : List (Nat × Nat)) : List (Nat × Nat) :=
  sortByKey (fun r => r.1) l

/-- One step of the merge loop: push the range when it starts strictly after
the current last range ends, otherwise extend the last range. -/
def mergeStep (merged : List (Nat × Nat)) (m : Nat × Nat) : List (Nat × Nat) :=
  match merged.getLast? with
  | none => merged ++ [m]
  | some last =>
    if last.2 < m.1 then merged ++ [m]
    else merged.dropLast ++ [(last.1, max last.2 m.2)]

/-- The merge loop over the sorted ranges. -/
def mergeRanges (l : List (Nat × Nat)) : List (Nat × Nat) := l.foldl mergeStep []

/-- The final loop of `highlightText`: walk the merged ranges slicing the
original text into plain and matched spans, then append the tail. -/
def buildParts (text : Str) : List (Nat × Nat) → Nat → List Span
  | [], lastEnd => if lastEnd < text.length then [⟨text.drop lastEnd, false⟩] else []
  | (s, e) :: rest, lastEnd =>
    (if lastEnd < s then [⟨jsSubstring text lastEnd s, false⟩] else [])
    ++ ⟨jsSubstring text s e, true⟩ :: buildParts text rest e

/-- The helper `highlightText(text, searchTerm)` from Home.jsx, with the two
`return text` early exits rendered as a single plain span.  The result is
`some spans` when the JS function returns, and `none` when its
occurrence-collection loop never terminates (which happens exactly when a
search word's normalization is the empty string). -/
def highlightText (text searchTerm : Str) : Option (List Span) :=
  if searchTerm = [] ∨ text = [] then some [⟨text, false⟩]
  else
    let searchWords := (splitWs (jsTrim searchTerm)).filter (fun w => w.length > 0)
    if searchWords.length = 0 then some [⟨text, false⟩]
    else
      let normalizedText := normalizeText text
      let matchRanges := searchWords.foldl (collectStep normalizedText) (some [])
      match matchRanges with
      | none => none
      | some ms =>
        if ms = [] then some [⟨text, false⟩]
        else some (buildParts text (mergeRanges (sortRangesByStart ms)) 0)

example :
    highlightText (s2l "Cai, mă") (s2l "cai") =
      some [⟨s2l "Cai", true⟩, ⟨s2l ", mă", false⟩] := by decide

/-- The id passed by one matched item, as collected by `includeParentsAndChildren`. -/
def wantedBy (d : List FlatRecord) (mm : FlatRecord) (x : Int) : Prop :=
  x = mm.id ∨ x ∈ mm.parentIds ∨ ∃ c ∈ d, mm.id ∈ c.parentIds ∧ x = c.id

/-- Every id in `pids` is the id of some record already in `acc`. -/
def ChainOk (pids : List Int) (acc : List FlatRecord) : Prop :=
  ∀ a ∈ pids, ∃ r ∈ acc, r.id = a

/-- Every `parentIds` entry of a record refers to the id of a record that
appears strictly earlier in the list. -/
def AccOk (acc : List FlatRecord) : Prop :=
  ∀ k, (hk : k < acc.length) → ∀ a ∈ acc[k].parentIds, ∃ r ∈ acc.take k, r.id = a

/-- The concatenation of the spans' texts. -/
def spansText (l : List Span) : Str := l.foldr (fun sp acc => sp.text ++ acc) []

/-- The merge step viewed on the reversed accumulator (head = last). -/
def revStep (racc : List (Nat × Nat)) (m : Nat × Nat) : List (Nat × Nat) :=
  match racc with
  | [] => [m]
  | last :: rs => if last.2 < m.1 then m :: last :: rs else (last.1, max last.2 m.2) :: rs

/-- Well-formedness of the reversed merge accumulator: ranges are listed
last-first, disjoint with gaps, and each lies inside the text. -/
def RevWF (len : Nat) (racc : List (Nat × Nat)) : Prop :=
  List.Chain' (fun a b => b.2 < a.1) racc ∧ ∀ r ∈ racc, r.1 ≤ r.2 ∧ r.2 ≤ len

/-! ## Concrete sample data used in the worked examples -/

/-- A flat record with the given id, position and text fields and empty
everything else. -/
def mkSample (i : Int) (idx : Nat) (nc ro ru en : String) : FlatRecord :=
  { id := i, nc := s2l nc, name_ro := s2l ro, name_ru := s2l ru, name_en := s2l en,
    import_acts := [], level := 0, parentIds := [], indexInTree := idx,
    vat := [], excise := [], tax_values := [] }

/-- The all-empty record, used as the `getD` default. -/
def emptyRec : FlatRecord := mkSample 0 0 "" "" "" ""

def caiRec : FlatRecord := mkSample 1 0 "" "Cai, măgari" "" ""

def alteleRec : FlatRecord := mkSample 2 1 "" "Altele" "" ""

/-- A record whose NC code contains internal whitespace. -/
def spacedNcRec : FlatRecord := mkSample 1 0 "0 1" "" "" ""

def nc0101Rec : FlatRecord := mkSample 1 0 "0101" "" "" ""

def nc010121000Rec : FlatRecord := mkSample 2 1 "010121000" "" "" ""

def nc0102Rec : FlatRecord := mkSample 3 2 "0102" "" "" ""

def woodBedRec : FlatRecord := mkSample 1 0 "" "" "" "wooden children\x27s bed"

def plainRec : FlatRecord := mkSample 1 0 "9401" "Scaune" "" ""

/-- The spec's flattener example tree: `[{id:1,children:[{id:2},{id:3}]}]`,
with every optional field absent. -/
def exTree : CategoryNode :=
  .mk 1 none none none none none none
    [.mk 2 none none none none none none [], .mk 3 none none none none none none []]

def exRec1 : FlatRecord :=
  { id := 1, nc := [], name_ro := [], name_ru := [], name_en := [], import_acts := [],
    level := 0, parentIds := [], indexInTree := 0, vat := [], excise := [], tax_values := [] }

def exRec2 : FlatRecord :=
  { id := 2, nc := [], name_ro := [], name_ru := [], name_en := [], import_acts := [],
    level := 1, parentIds := [1], indexInTree := 1, vat := [], excise := [], tax_values := [] }

def exRec3 : FlatRecord :=
  { id := 3, nc := [], name_ro := [], name_ru := [], name_en := [], import_acts := [],
    level := 1, parentIds := [1], indexInTree := 2, vat := [], excise := [], tax_values := [] }

/-! ## Lemmas about the substring machinery -/

theorem strStartsWith_iff (s p : Str) :
    strStartsWith s p = true ↔ ∃ t, s = p ++ t := by
  induction p generalizing s with
  | nil => simp [strStartsWith]
  | cons d ds ih =>
    cases s with
    | nil => simp [strStartsWith]
    | cons c cs =>
      simp only [strStartsWith, Bool.and_eq_true, beq_iff_eq, ih, List.cons_append]
      constructor
      · rintro ⟨rfl, t, rfl⟩
        exact ⟨t, rfl⟩
      · rintro ⟨t, h⟩
        cases h
        exact ⟨rfl, t, rfl⟩

theorem findSub_isSome_iff (l needle : Str) (base : Nat) :
    (findSub l needle base).isSome = true ↔ ∃ pre post, l = pre ++ needle ++ post := by
  induction l generalizing base with
  | nil =>
    simp only [findSub]
    constructor
    · intro h
      by_cases hs : strStartsWith [] needle = true
      · rcases (strStartsWith_iff [] needle).1 hs with ⟨t, ht⟩
        rcases List.append_eq_nil.1 ht.symm with ⟨h1, _⟩
        exact ⟨[], [], by simp [h1]⟩
      · simp [hs] at h
    · rintro ⟨pre, post, h⟩
      rcases List.append_eq_nil.1 h.symm with ⟨h1, h2⟩
      rcases List.append_eq_nil.1 h1 with ⟨_, h4⟩
      have : strStartsWith [] needle = true := by
        rw [strStartsWith_iff]
        exact ⟨[], by simp [h4]⟩
      simp [this]
  | cons c t ih =>
    simp only [findSub]
    by_cases hs : strStartsWith (c :: t) needle = true
    · rcases (strStartsWith_iff _ needle).1 hs with ⟨r, hr⟩
      simp only [hs, if_true, Option.isSome_some, true_iff]
      exact ⟨[], r, by simp [hr]⟩
    · simp only [hs, if_false, Bool.false_eq_true, ih]
      constructor
      · rintro ⟨pre, post, rfl⟩
        exact ⟨c :: pre, post, rfl⟩
      · rintro ⟨pre, post, h⟩
        cases pre with
        | nil =>
          exfalso
          apply hs
          rw [strStartsWith_iff]
          exact ⟨post, by simpa using h⟩
        | cons p ps =>
          refine ⟨ps, post, ?_⟩
          simp only [List.cons_append] at h
          exact (List.cons.injEq _ _ _ _ ▸ h).2

theorem jsIncludes_iff (hay needle : Str) :
    jsIncludes hay needle = true ↔ ∃ pre post, hay = pre ++ needle ++ post := by
  unfold jsIncludes jsIndexOfFrom
  by_cases hn : needle = []
  · subst hn
    simp
    exact ⟨[], hay, by simp⟩
  · simp only [hn, if_false, List.drop_zero]
    exact findSub_isSome_iff hay needle 0

theorem jsIncludes_nil_right (hay : Str) : jsIncludes hay [] = true := by
  simp [jsIncludes, jsIndexOfFrom]

theorem strEndsWith_singleton_iff (s : Str) (c : Nat) :
    strEndsWith s [c] = true ↔ ∃ t, s = t ++ [c] := by
  unfold strEndsWith
  rw [strStartsWith_iff]
  constructor
  · rintro ⟨t, ht⟩
    refine ⟨t.reverse, ?_⟩
    have := congrArg List.reverse ht
    simpa using this
  · rintro ⟨t, rfl⟩
    exact ⟨t.reverse, by simp⟩

theorem strStartsWith_ne_nil (s : Str) (c : Nat) (h : strStartsWith s [c] = true) :
    s ≠ [] := by
  rcases (strStartsWith_iff s [c]).1 h with ⟨t, rfl⟩
  simp

theorem strEndsWith_ne_nil (s : Str) (c : Nat) (h : strEndsWith s [c] = true) :
    s ≠ [] := by
  rcases (strEndsWith_singleton_iff s c).1 h with ⟨t, rfl⟩
  simp

/-! ## Lemmas about the stable sorts -/

theorem insertByKey_perm {α : Type} (key : α → Nat) (r : α) (l : List α) :
    List.Perm (insertByKey key r l) (r :: l) := by
  induction l with
  | nil => simp [insertByKey]
  | cons x xs ih =>
    unfold insertByKey
    by_cases h : key r ≤ key x
    · simp [h]
    · simp only [h, if_false]
      exact (ih.cons x).trans (List.Perm.swap r x xs)

theorem sortByKey_perm {α : Type} (key : α → Nat) (l : List α) :
    List.Perm (sortByKey key l) l := by
  induction l with
  | nil => simp [sortByKey]
  | cons x xs ih =>
    unfold sortByKey at *
    exact (insertByKey_perm key x (xs.foldr (insertByKey key) [])).trans (ih.cons x)

theorem mem_insertByKey {α : Type} (key : α → Nat) (r a : α) (l : List α) :
    a ∈ insertByKey key r l ↔ a = r ∨ a ∈ l := by
  rw [(insertByKey_perm key r l).mem_iff]
  simp

theorem pairwise_insertByKey {α : Type} (key : α → Nat) (r : α) (l : List α)
    (h : List.Pairwise (fun a b => key a ≤ key b) l) :
    List.Pairwise (fun a b => key a ≤ key b) (insertByKey key r l) := by
  induction l with
  | nil => simp [insertByKey]
  | cons x xs ih =>
    rcases List.pairwise_cons.1 h with ⟨hx, hxs⟩
    unfold insertByKey
    by_cases hr : key r ≤ key x
    · rw [if_pos hr]
      refine List.pairwise_cons.2 ⟨?_, h⟩
      intro b hb
      rcases List.mem_cons.1 hb with rfl | hb2
      · exact hr
      · exact le_trans hr (hx b hb2)
    · rw [if_neg hr]
      refine List.pairwise_cons.2 ⟨?_, ih hxs⟩
      intro b hb
      rcases (mem_insertByKey key r b xs).1 hb with rfl | hb
      · omega
      · exact hx b hb

theorem sortByKey_pairwise {α : Type} (key : α → Nat) (l : List α) :
    List.Pairwise (fun a b => key a ≤ key b) (sortByKey key l) := by
  induction l with
  | nil => simp [sortByKey]
  | cons x xs ih =>
    unfold sortByKey at *
    exact pairwise_insertByKey key x _ ih

/-! ## Lemmas about context expansion -/

theorem mem_addToSet (s : List Int) (x y : Int) :
    y ∈ addToSet s x ↔ y = x ∨ y ∈ s := by
  unfold addToSet
  by_cases h : s.contains x
  · rw [if_pos h]
    simp only [List.elem_eq_mem, decide_eq_true_eq] at h
    constructor
    · intro hy
      exact Or.inr hy
    · rintro (rfl | hy)
      · exact h
      · exact hy
  · rw [if_neg h]
    simp

theorem mem_foldl_addToSet (l : List Int) (s : List Int) (x : Int) :
    x ∈ l.foldl addToSet s ↔ x ∈ s ∨ x ∈ l := by
  induction l generalizing s with
  | nil => simp
  | cons a t ih =>
    simp only [List.foldl_cons, ih, mem_addToSet, List.mem_cons]
    tauto

theorem mem_foldl_childAdd (d : List FlatRecord) (mid : Int) (s : List Int) (x : Int) :
    x ∈ d.foldl (fun s pc => if pc.parentIds.contains mid then addToSet s pc.id else s) s ↔
      x ∈ s ∨ ∃ c ∈ d, mid ∈ c.parentIds ∧ x = c.id := by
  induction d generalizing s with
  | nil => simp
  | cons c t ih =>
    simp only [List.foldl_cons, ih, List.mem_cons]
    by_cases h : c.parentIds.contains mid
    · rw [if_pos h]
      simp only [List.elem_eq_mem, decide_eq_true_eq] at h
      simp only [mem_addToSet]
      constructor
      · rintro ((rfl | hs) | ⟨cc, hcc, hmid, rfl⟩)
        · exact Or.inr ⟨c, Or.inl rfl, h, rfl⟩
        · exact Or.inl hs
        · exact Or.inr ⟨cc, Or.inr hcc, hmid, rfl⟩
      · rintro (hs | ⟨cc, (rfl | hcc), hmid, rfl⟩)
        · exact Or.inl (Or.inr hs)
        · exact Or.inl (Or.inl rfl)
        · exact Or.inr ⟨cc, hcc, hmid, rfl⟩
    · rw [if_neg h]
      simp only [List.elem_eq_mem, decide_eq_true_eq] at h
      constructor
      · rintro (hs | ⟨cc, hcc, hmid, rfl⟩)
        · exact Or.inl hs
        · exact Or.inr ⟨cc, Or.inr hcc, hmid, rfl⟩
      · rintro (hs | ⟨cc, (rfl | hcc), hmid, rfl⟩)
        · exact Or.inl hs
        · exact absurd hmid h
        · exact Or.inr ⟨cc, hcc, hmid, rfl⟩

theorem mem_itemsToShow (d m : List FlatRecord) (s : List Int) (x : Int) :
    x ∈ m.foldl (fun s item =>
        let s1 := addToSet s item.id
        let s2 := item.parentIds.foldl addToSet s1
        d.foldl (fun s pc =>
          if pc.parentIds.contains item.id then addToSet s pc.id else s) s2) s ↔
      x ∈ s ∨ ∃ mm ∈ m, wantedBy d mm x := by
  induction m generalizing s with
  | nil => simp
  | cons mm t ih =>
    simp only [List.foldl_cons, ih, mem_foldl_childAdd, mem_foldl_addToSet, mem_addToSet,
      List.mem_cons]
    unfold wantedBy
    constructor
    · rintro ((((rfl | hs) | hp) | ⟨c, hc, hmid, rfl⟩) | ⟨mm2, hmm2, hw⟩)
      · exact Or.inr ⟨mm, Or.inl rfl, Or.inl rfl⟩
      · exact Or.inl hs
      · exact Or.inr ⟨mm, Or.inl rfl, Or.inr (Or.inl hp)⟩
      · exact Or.inr ⟨mm, Or.inl rfl, Or.inr (Or.inr ⟨c, hc, hmid, rfl⟩)⟩
      · exact Or.inr ⟨mm2, Or.inr hmm2, hw⟩
    · rintro (hs | ⟨mm2, (rfl | hmm2), hw⟩)
      · exact Or.inl (Or.inl (Or.inl (Or.inr hs)))
      · rcases hw with rfl | hp | ⟨c, hc, hmid, rfl⟩
        · exact Or.inl (Or.inl (Or.inl (Or.inl rfl)))
        · exact Or.inl (Or.inl (Or.inr hp))
        · exact Or.inl (Or.inr ⟨c, hc, hmid, rfl⟩)
      · exact Or.inr ⟨mm2, hmm2, hw⟩

theorem includeParentsAndChildren_eq (d m : List FlatRecord) (hm : m.isEmpty = false) :
    includeParentsAndChildren d m =
      sortByIndexInTree (d.filter (fun item => (itemsToShowOf d m).contains item.id)) := by
  unfold includeParentsAndChildren
  rw [if_neg (by simp [hm])]
  rfl

theorem mem_itemsToShowOf (d m : List FlatRecord) (x : Int) :
    x ∈ itemsToShowOf d m ↔ ∃ mm ∈ m, wantedBy d mm x := by
  unfold itemsToShowOf
  rw [mem_itemsToShow]
  simp

theorem mem_includeParentsAndChildren (d m : List FlatRecord) (r : FlatRecord) :
    r ∈ includeParentsAndChildren d m ↔
      r ∈ d ∧ ∃ mm ∈ m, wantedBy d mm r.id := by
  by_cases hm : m.isEmpty
  · rw [List.isEmpty_iff] at hm
    subst hm
    simp [includeParentsAndChildren]
  · rw [includeParentsAndChildren_eq d m (by simpa using hm)]
    unfold sortByIndexInTree
    rw [(sortByKey_perm _ _).mem_iff]
    simp only [List.mem_filter, List.elem_eq_mem, decide_eq_true_eq]
    rw [mem_itemsToShowOf]

theorem includeParentsAndChildren_nil (d : List FlatRecord) :
    includeParentsAndChildren d [] = [] := by
  simp [includeParentsAndChildren]

theorem includeParentsAndChildren_sorted (d m : List FlatRecord) :
    List.Pairwise (fun a b => a.indexInTree ≤ b.indexInTree)
      (includeParentsAndChildren d m) := by
  unfold includeParentsAndChildren
  by_cases hm : m.isEmpty
  · rw [if_pos hm]
    simp
  · rw [if_neg hm]
    exact sortByKey_pairwise _ _

theorem includeParentsAndChildren_count (d m : List FlatRecord) (r : FlatRecord) :
    (includeParentsAndChildren d m).count r ≤ d.count r := by
  by_cases hm : m.isEmpty
  · rw [List.isEmpty_iff] at hm
    subst hm
    simp [includeParentsAndChildren]
  · rw [includeParentsAndChildren_eq d m (by simpa using hm)]
    unfold sortByIndexInTree
    rw [(sortByKey_perm _ _).count_eq]
    exact List.Sublist.count_le (List.filter_sublist d) r

/-! ## Branch equations for the search-mode dispatch -/

theorem filteredData_of_trim_nil (d : List FlatRecord) (q : Str) (h : jsTrim q = []) :
    filteredData d q = d := by
  simp [filteredData, h]

theorem filteredData_exact_branch (d : List FlatRecord) (q : Str)
    (h1 : strStartsWith (jsTrim q) [34] = true)
    (h2 : strEndsWith (jsTrim q) [34] = true) :
    filteredData d q =
      includeParentsAndChildren d
        (d.filter (exactMatch (normalizeText (((jsTrim q).drop 1).dropLast)))) := by
  have ht : ¬(jsTrim q = []) := strStartsWith_ne_nil _ 34 h1
  simp only [filteredData, ht, if_false, h1, h2, Bool.and_self, if_true]

theorem filteredData_wildcard_branch (d : List FlatRecord) (q : Str)
    (h1 : (strStartsWith (jsTrim q) [34] && strEndsWith (jsTrim q) [34]) = false)
    (h2 : strEndsWith (jsTrim q) [42] = true) :
    filteredData d q =
      includeParentsAndChildren d
        (d.filter (wildcardMatch (removeWs (normalizeText ((jsTrim q).dropLast))))) := by
  have ht : ¬(jsTrim q = []) := strEndsWith_ne_nil _ 42 h2
  simp only [filteredData, ht, if_false, h1, h2, Bool.false_eq_true, if_true]

theorem filteredData_numeric_branch (d : List FlatRecord) (q : Str)
    (h1 : (strStartsWith (jsTrim q) [34] && strEndsWith (jsTrim q) [34]) = false)
    (h2 : strEndsWith (jsTrim q) [42] = false)
    (h3 : isAllDigits (removeWs (jsTrim q)) = true) :
    filteredData d q =
      includeParentsAndChildren d
        (d.filter (numericMatch (removeWs (jsTrim q)))) := by
  have ht : ¬(jsTrim q = []) := by
    intro he
    rw [he] at h3
    simp [removeWs, isAllDigits] at h3
  simp only [filteredData, ht, if_false, h1, h2, h3, Bool.false_eq_true, if_true]

theorem filteredData_fuzzy_branch (d : List FlatRecord) (q : Str)
    (ht : jsTrim q ≠ [])
    (h1 : (strStartsWith (jsTrim q) [34] && strEndsWith (jsTrim q) [34]) = false)
    (h2 : strEndsWith (jsTrim q) [42] = false)
    (h3 : isAllDigits (removeWs (jsTrim q)) = false) :
    filteredData d q =
      includeParentsAndChildren d
        (d.filter (fuzzyMatch ((splitWs (jsTrim (jsTrim q))).map normalizeText))) := by
  simp only [filteredData, ht, if_false, h1, h2, h3, Bool.false_eq_true, if_true]

/-! ## Lemmas about the flattener -/

theorem mkFlat_id (node : CategoryNode) (lvl : Nat) (pids : List Int) (i : Nat) :
    (mkFlat node lvl pids i).id = node.id := by
  cases node
  rfl

theorem mkFlat_parentIds (node : CategoryNode) (lvl : Nat) (pids : List Int) (i : Nat) :
    (mkFlat node lvl pids i).parentIds = pids := by
  cases node
  rfl

theorem flattenList_shape (nodes : List CategoryNode) (lvl : Nat) (pids : List Int)
    (acc : List FlatRecord) :
    ∃ t, flattenList nodes lvl pids acc = acc ++ t := by
  induction nodes, lvl, pids, acc using flattenList.induct with
  | case1 lvl pids acc =>
    exact ⟨[], by simp [flattenList]⟩
  | case2 lvl pids acc node rest acc1 acc2 ih1 ih2 ih3 =>
    rw [flattenList]
    rcases ih3 with ⟨t2, ht2⟩
    by_cases hc : node.children.length > 0
    · rcases ih2 hc with ⟨t1, ht1⟩
      have hacc2 : acc2 = acc ++ [mkFlat node lvl pids acc.length] ++ t1 := by
        show (if h : node.children.length > 0 then
            flattenList node.children (lvl + 1) (pids ++ [node.id]) acc1 else acc1) = _
        rw [dif_pos hc]
        exact ht1
      rw [hacc2] at ht2
      refine ⟨mkFlat node lvl pids acc.length :: (t1 ++ t2), ?_⟩
      simp only [if_pos hc]
      rw [ht1, ht2]
      simp
    · have hacc2 : acc2 = acc ++ [mkFlat node lvl pids acc.length] := by
        show (if h : node.children.length > 0 then
            flattenList node.children (lvl + 1) (pids ++ [node.id]) acc1 else acc1) = _
        rw [dif_neg hc]
      rw [hacc2] at ht2
      refine ⟨mkFlat node lvl pids acc.length :: t2, ?_⟩
      simp only [if_neg hc]
      rw [ht2]
      simp

theorem ChainOk_append (pids : List Int) (acc t : List FlatRecord) (h : ChainOk pids acc) :
    ChainOk pids (acc ++ t) := by
  intro a ha
  rcases h a ha with ⟨r, hr, hid⟩
  exact ⟨r, List.mem_append_left _ hr, hid⟩

theorem AccOk_push (acc : List FlatRecord) (r : FlatRecord) (h : AccOk acc)
    (hr : ∀ a ∈ r.parentIds, ∃ x ∈ acc, x.id = a) : AccOk (acc ++ [r]) := by
  intro k hk a ha
  rcases Nat.lt_or_ge k acc.length with hlt | hge
  · rw [List.getElem_append_left hlt] at ha
    rcases h k hlt a ha with ⟨x, hx, hid⟩
    refine ⟨x, ?_, hid⟩
    rwa [List.take_append_of_le_length (Nat.le_of_lt hlt)]
  · have hk' : k = acc.length := by
      simp only [List.length_append, List.length_cons, List.length_nil] at hk
      omega
    subst hk'
    have hget : (acc ++ [r])[acc.length] = r := by
      rw [List.getElem_append_right (Nat.le_refl _)]
      simp
    rw [hget] at ha
    rcases hr a ha with ⟨x, hx, hid⟩
    refine ⟨x, ?_, hid⟩
    rw [List.take_left]
    exact hx

theorem flattenList_inv (nodes : List CategoryNode) (lvl : Nat) (pids : List Int)
    (acc : List FlatRecord) :
    AccOk acc → ChainOk pids acc → AccOk (flattenList nodes lvl pids acc) := by
  induction nodes, lvl, pids, acc using flattenList.induct with
  | case1 lvl pids acc =>
    intro hA _
    simpa [flattenList] using hA
  | case2 lvl pids acc node rest acc1 acc2 ih1 ih2 ih3 =>
    intro hA hC
    rw [flattenList]
    have hA1 : AccOk (acc ++ [mkFlat node lvl pids acc.length]) := by
      apply AccOk_push acc _ hA
      rw [mkFlat_parentIds]
      exact hC
    have hCrest : ChainOk pids (acc ++ [mkFlat node lvl pids acc.length]) :=
      ChainOk_append pids acc _ hC
    have hC1 : ChainOk (pids ++ [node.id]) (acc ++ [mkFlat node lvl pids acc.length]) := by
      intro a ha
      rcases List.mem_append.1 ha with hp | hp
      · exact hCrest a hp
      · simp only [List.mem_singleton] at hp
        subst hp
        exact ⟨mkFlat node lvl pids acc.length,
          List.mem_append_right _ (List.mem_singleton_self _), mkFlat_id _ _ _ _⟩
    by_cases hc : node.children.length > 0
    · simp only [if_pos hc]
      have hAF := ih2 hc hA1 hC1
      rcases flattenList_shape node.children (lvl + 1) (pids ++ [node.id])
        (acc ++ [mkFlat node lvl pids acc.length]) with ⟨t, ht⟩
      have hCF : ChainOk pids
          (flattenList node.children (lvl + 1) (pids ++ [node.id])
            (acc ++ [mkFlat node lvl pids acc.length])) := by
        rw [ht]
        rw [List.append_assoc]
        exact ChainOk_append pids acc _ hC
      have hacc2 : acc2 = flattenList node.children (lvl + 1) (pids ++ [node.id])
          (acc ++ [mkFlat node lvl pids acc.length]) := by
        show (if h : node.children.length > 0 then
            flattenList node.children (lvl + 1) (pids ++ [node.id]) acc1 else acc1) = _
        rw [dif_pos hc]
      have ih3' := hacc2 ▸ ih3
      exact ih3' hAF hCF
    · simp only [if_neg hc]
      have hacc2 : acc2 = acc ++ [mkFlat node lvl pids acc.length] := by
        show (if h : node.children.length > 0 then
            flattenList node.children (lvl + 1) (pids ++ [node.id]) acc1 else acc1) = _
        rw [dif_neg hc]
      have ih3' := hacc2 ▸ ih3
      exact ih3' hA1 hCrest

theorem flattenTree_inv (data : List CategoryNode) : AccOk (flattenTree data) := by
  unfold flattenTree
  apply flattenList_inv
  · intro k hk
    simp at hk
  · intro a ha
    simp at ha

/-! ## Lemmas about the normalizer -/

theorem jsToLower_eq_self (c : Nat) (h1 : ¬(65 ≤ c ∧ c ≤ 90)) (h2 : c ≠ 0x102)
    (h3 : c ≠ 0xC2) (h4 : c ≠ 0xCE) (h5 : c ≠ 0x15E) (h6 : c ≠ 0x162)
    (h7 : c ≠ 0x218) (h8 : c ≠ 0x21A) : jsToLower c = c := by
  simp [jsToLower, h1, h2, h3, h4, h5, h6, h7, h8]

theorem nfdChar_eq_self (c : Nat) (h1 : c ≠ 0x103) (h2 : c ≠ 0xE2) (h3 : c ≠ 0xEE)
    (h4 : c ≠ 0x15F) (h5 : c ≠ 0x163) (h6 : c ≠ 0x219) (h7 : c ≠ 0x21B) :
    nfdChar c = [c] := by
  simp [nfdChar, h1, h2, h3, h4, h5, h6, h7]

/-- Any code point emitted by `lowercase → NFD → strip marks` is a fixed
point of lowercasing and of decomposition. -/
theorem norm_output_fixed (b c : Nat) (hmem : c ∈ nfdChar (jsToLower b))
    (hc : isCombining c = false) :
    jsToLower c = c ∧ nfdChar c = [c] := by
  by_cases hA : 65 ≤ b ∧ b ≤ 90
  · have hl : jsToLower b = b + 32 := by simp [jsToLower, hA]
    rw [hl] at hmem
    have hb32 : 97 ≤ b + 32 ∧ b + 32 ≤ 122 := by omega
    have hnf : nfdChar (b + 32) = [b + 32] := by
      apply nfdChar_eq_self <;> omega
    rw [hnf] at hmem
    simp only [List.mem_singleton] at hmem
    subst hmem
    exact ⟨jsToLower_eq_self _ (by omega) (by omega) (by omega) (by omega) (by omega)
      (by omega) (by omega) (by omega), hnf⟩
  · -- b is not an ASCII capital; the lowercase table is a finite case split
    by_cases e1 : b = 0x102
    · subst e1
      simp only [show jsToLower 0x102 = 0x103 from by decide] at hmem
      simp only [show nfdChar 0x103 = [97, 0x306] from by decide] at hmem
      rcases List.mem_pair.1 hmem with rfl | rfl
      · exact ⟨by decide, by decide⟩
      · simp [isCombining] at hc
    · by_cases e2 : b = 0xC2
      · subst e2
        simp only [show jsToLower 0xC2 = 0xE2 from by decide] at hmem
        simp only [show nfdChar 0xE2 = [97, 0x302] from by decide] at hmem
        rcases List.mem_pair.1 hmem with rfl | rfl
        · exact ⟨by decide, by decide⟩
        · simp [isCombining] at hc
      · by_cases e3 : b = 0xCE
        · subst e3
          simp only [show jsToLower 0xCE = 0xEE from by decide] at hmem
          simp only [show nfdChar 0xEE = [105, 0x302] from by decide] at hmem
          rcases List.mem_pair.1 hmem with rfl | rfl
          · exact ⟨by decide, by decide⟩
          · simp [isCombining] at hc
        · by_cases e4 : b = 0x15E
          · subst e4
            simp only [show jsToLower 0x15E = 0x15F from by decide] at hmem
            simp only [show nfdChar 0x15F = [115, 0x327] from by decide] at hmem
            rcases List.mem_pair.1 hmem with rfl | rfl
            · exact ⟨by decide, by decide⟩
            · simp [isCombining] at hc
          · by_cases e5 : b = 0x162
            · subst e5
              simp only [show jsToLower 0x162 = 0x163 from by decide] at hmem
              simp only [show nfdChar 0x163 = [116, 0x327] from by decide] at hmem
              rcases List.mem_pair.1 hmem with rfl | rfl
              · exact ⟨by decide, by decide⟩
              · simp [isCombining] at hc
            · by_cases e6 : b = 0x218
              · subst e6
                simp only [show jsToLower 0x218 = 0x219 from by decide] at hmem
                simp only [show nfdChar 0x219 = [115, 0x326] from by decide] at hmem
                rcases List.mem_pair.1 hmem with rfl | rfl
                · exact ⟨by decide, by decide⟩
                · simp [isCombining] at hc
              · by_cases e7 : b = 0x21A
                · subst e7
                  simp only [show jsToLower 0x21A = 0x21B from by decide] at hmem
                  simp only [show nfdChar 0x21B = [116, 0x326] from by decide] at hmem
                  rcases List.mem_pair.1 hmem with rfl | rfl
                  · exact ⟨by decide, by decide⟩
                  · simp [isCombining] at hc
                · -- lowercase leaves b unchanged
                  have hl : jsToLower b = b :=
                    jsToLower_eq_self b hA e1 e2 e3 e4 e5 e6 e7
                  rw [hl] at hmem
                  -- now a finite case split on the decomposition of b
                  by_cases f1 : b = 0x103
                  · subst f1
                    simp only [show nfdChar 0x103 = [97, 0x306] from by decide] at hmem
                    rcases List.mem_pair.1 hmem with rfl | rfl
                    · exact ⟨by decide, by decide⟩
                    · simp [isCombining] at hc
                  · by_cases f2 : b = 0xE2
                    · subst f2
                      simp only [show nfdChar 0xE2 = [97, 0x302] from by decide] at hmem
                      rcases List.mem_pair.1 hmem with rfl | rfl
                      · exact ⟨by decide, by decide⟩
                      · simp [isCombining] at hc
                    · by_cases f3 : b = 0xEE
                      · subst f3
                        simp only [show nfdChar 0xEE = [105, 0x302] from by decide] at hmem
                        rcases List.mem_pair.1 hmem with rfl | rfl
                        · exact ⟨by decide, by decide⟩
                        · simp [isCombining] at hc
                      · by_cases f4 : b = 0x15F
                        · subst f4
                          simp only [show nfdChar 0x15F = [115, 0x327] from by decide] at hmem
                          rcases List.mem_pair.1 hmem with rfl | rfl
                          · exact ⟨by decide, by decide⟩
                          · simp [isCombining] at hc
                        · by_cases f5 : b = 0x163
                          · subst f5
                            simp only [show nfdChar 0x163 = [116, 0x327] from by decide] at hmem
                            rcases List.mem_pair.1 hmem with rfl | rfl
                            · exact ⟨by decide, by decide⟩
                            · simp [isCombining] at hc
                          · by_cases f6 : b = 0x219
                            · subst f6
                              simp only [show nfdChar 0x219 = [115, 0x326] from by decide] at hmem
                              rcases List.mem_pair.1 hmem with rfl | rfl
                              · exact ⟨by decide, by decide⟩
                              · simp [isCombining] at hc
                            · by_cases f7 : b = 0x21B
                              · subst f7
                                simp only [show nfdChar 0x21B = [116, 0x326] from by decide] at hmem
                                rcases List.mem_pair.1 hmem with rfl | rfl
                                · exact ⟨by decide, by decide⟩
                                · simp [isCombining] at hc
                              · have hnf : nfdChar b = [b] :=
                                  nfdChar_eq_self b f1 f2 f3 f4 f5 f6 f7
                                rw [hnf] at hmem
                                simp only [List.mem_singleton] at hmem
                                subst hmem
                                exact ⟨hl, hnf⟩

theorem normalizeText_cons (c : Nat) (s : Str) :
    normalizeText (c :: s) =
      ((nfdChar (jsToLower c)).filter (fun d => !isCombining d)) ++ normalizeText s := by
  simp [normalizeText]

theorem mem_normalizeText (c : Nat) (s : Str) (h : c ∈ normalizeText s) :
    jsToLower c = c ∧ nfdChar c = [c] ∧ isCombining c = false := by
  induction s with
  | nil => simp [normalizeText] at h
  | cons b t ih =>
    rw [normalizeText_cons] at h
    rcases List.mem_append.1 h with hb | ht
    · rcases List.mem_filter.1 hb with ⟨hmem, hcomb⟩
      simp only [Bool.not_eq_eq_eq_not, Bool.not_true] at hcomb
      rcases norm_output_fixed b c hmem hcomb with ⟨hl, hn⟩
      exact ⟨hl, hn, hcomb⟩
    · exact ih ht

theorem normalizeText_fixed (t : Str)
    (h : ∀ c ∈ t, jsToLower c = c ∧ nfdChar c = [c] ∧ isCombining c = false) :
    normalizeText t = t := by
  induction t with
  | nil => rfl
  | cons c s ih =>
    rcases h c (List.mem_cons_self c s) with ⟨hl, hn, hc⟩
    rw [normalizeText_cons, hl, hn]
    simp only [List.filter_cons, hc, Bool.not_false, if_true, List.filter_nil]
    rw [ih (fun d hd => h d (List.mem_cons_of_mem c hd))]
    rfl

theorem normalizeText_idem (s : Str) :
    normalizeText (normalizeText s) = normalizeText s :=
  normalizeText_fixed (normalizeText s) (fun c hc => mem_normalizeText c s hc)

/-! ## Lemmas about the highlighter -/

theorem spansText_append (l1 l2 : List Span) :
    spansText (l1 ++ l2) = spansText l1 ++ spansText l2 := by
  induction l1 with
  | nil => simp [spansText]
  | cons sp t ih =>
    simp only [List.cons_append, spansText, List.foldr_cons] at *
    rw [ih]
    simp

theorem findSub_some_bound (l needle : Str) (base i : Nat)
    (h : findSub l needle base = some i) :
    base ≤ i ∧ (i - base) + needle.length ≤ l.length := by
  induction l generalizing base with
  | nil =>
    unfold findSub at h
    by_cases hs : strStartsWith [] needle = true
    · rcases (strStartsWith_iff [] needle).1 hs with ⟨t, ht⟩
      rcases List.append_eq_nil.1 ht.symm with ⟨h1, _⟩
      rw [if_pos hs] at h
      cases h
      simp [h1]
    · rw [if_neg hs] at h
      cases h
  | cons c t ih =>
    unfold findSub at h
    by_cases hs : strStartsWith (c :: t) needle = true
    · rcases (strStartsWith_iff _ needle).1 hs with ⟨r, hr⟩
      rw [if_pos hs] at h
      cases h
      have : (c :: t).length = needle.length + r.length := by rw [hr]; simp
      simp only [Nat.sub_self]
      constructor
      · exact Nat.le_refl _
      · simp only [List.length_cons] at this ⊢
        omega
    · rw [if_neg hs] at h
      rcases ih (base + 1) h with ⟨h1, h2⟩
      constructor
      · omega
      · simp only [List.length_cons]
        omega

theorem jsIndexOfFrom_some_bound (hay needle : Str) (start i : Nat)
    (h : jsIndexOfFrom hay needle start = some i) :
    i + needle.length ≤ hay.length := by
  unfold jsIndexOfFrom at h
  by_cases hn : needle = []
  · rw [if_pos hn] at h
    cases h
    simp [hn]
  · rw [if_neg hn] at h
    rcases findSub_some_bound _ _ _ _ h with ⟨h1, h2⟩
    rw [List.length_drop] at h2
    have hlen : 1 ≤ needle.length := by
      cases needle with
      | nil => exact absurd rfl hn
      | cons a b => simp
    omega

theorem collectFrom_some_bounds (ntext nword : Str) :
    ∀ (fuel start : Nat) (l : List (Nat × Nat)),
      collectFrom ntext nword start fuel = some l →
      ∀ r ∈ l, r.1 ≤ r.2 ∧ r.2 ≤ ntext.length := by
  intro fuel
  induction fuel with
  | zero => intro start l h; simp [collectFrom] at h
  | succ n ih =>
    intro start l h r hr
    unfold collectFrom at h
    cases hidx : jsIndexOfFrom ntext nword start with
    | none =>
      rw [hidx] at h
      have h2 : some ([] : List (Nat × Nat)) = some l := h
      simp only [Option.some.injEq] at h2
      subst h2
      simp at hr
    | some i =>
      rw [hidx] at h
      have h2 : Option.map (fun rest => (i, i + nword.length) :: rest)
          (collectFrom ntext nword (i + 1) n) = some l := h
      cases hrec : collectFrom ntext nword (i + 1) n with
      | none =>
        rw [hrec] at h2
        simp at h2
      | some rest =>
        rw [hrec] at h2
        simp only [Option.map_some', Option.some.injEq] at h2
        subst h2
        rcases List.mem_cons.1 hr with rfl | hr2
        · have := jsIndexOfFrom_some_bound ntext nword start i hidx
          constructor
          · simp
          · simpa using this
        · exact ih (i + 1) rest hrec r hr2

theorem collectFrom_none_of_nil_needle (ntext : Str) :
    ∀ (fuel start : Nat), collectFrom ntext [] start fuel = none := by
  intro fuel
  induction fuel with
  | zero => intro start; rfl
  | succ n ih =>
    intro start
    unfold collectFrom
    have hidx : jsIndexOfFrom ntext [] start = some (min start ntext.length) := by
      simp [jsIndexOfFrom]
    rw [hidx]
    show Option.map (fun rest => (min start ntext.length, min start ntext.length + ([] : Str).length) :: rest)
      (collectFrom ntext [] (min start ntext.length + 1) n) = none
    rw [ih]
    rfl

theorem collectFrom_isSome_of_ne_nil (ntext nword : Str) (hn : nword ≠ []) :
    ∀ (fuel start : Nat), ntext.length + 1 ≤ fuel + start → 1 ≤ fuel →
      (collectFrom ntext nword start fuel).isSome = true := by
  intro fuel
  induction fuel with
  | zero => intro start _ h1; omega
  | succ n ih =>
    intro start hle _
    unfold collectFrom
    cases hidx : jsIndexOfFrom ntext nword start with
    | none => rfl
    | some i =>
      have hb := jsIndexOfFrom_some_bound ntext nword start i hidx
      have hsi : start ≤ i := by
        unfold jsIndexOfFrom at hidx
        rw [if_neg hn] at hidx
        exact (findSub_some_bound _ _ _ _ hidx).1
      have hnl : 1 ≤ nword.length := by
        cases nword with
        | nil => exact absurd rfl hn
        | cons a b => simp
      show (Option.map (fun rest => (i, i + nword.length) :: rest)
        (collectFrom ntext nword (i + 1) n)).isSome = true
      have hrec := ih (i + 1) (by omega) (by omega)
      cases hrec2 : collectFrom ntext nword (i + 1) n with
      | none =>
        rw [hrec2] at hrec
        simp at hrec
      | some rest => rfl

theorem collectStep_none (ntext w : Str) : collectStep ntext none w = none := rfl

theorem foldl_collectStep_none (ntext : Str) (ws : List Str) :
    ws.foldl (collectStep ntext) none = none := by
  induction ws with
  | nil => rfl
  | cons w t ih =>
    simp only [List.foldl_cons, collectStep_none]
    exact ih

theorem foldl_collectStep_some_bounds (ntext : Str) (ws : List Str) :
    ∀ (acc ms : List (Nat × Nat)),
      ws.foldl (collectStep ntext) (some acc) = some ms →
      (∀ r ∈ acc, r.1 ≤ r.2 ∧ r.2 ≤ ntext.length) →
      ∀ r ∈ ms, r.1 ≤ r.2 ∧ r.2 ≤ ntext.length := by
  induction ws with
  | nil =>
    intro acc ms h hacc
    simp only [List.foldl_nil, Option.some.injEq] at h
    subst h
    exact hacc
  | cons w t ih =>
    intro acc ms h hacc
    simp only [List.foldl_cons] at h
    cases hc : collectFrom ntext (normalizeText w) 0 (ntext.length + 1) with
    | none =>
      rw [show collectStep ntext (some acc) w = none from by
        simp [collectStep, hc]] at h
      rw [foldl_collectStep_none] at h
      simp at h
    | some b =>
      rw [show collectStep ntext (some acc) w = some (acc ++ b) from by
        simp [collectStep, hc]] at h
      refine ih (acc ++ b) ms h ?_
      intro r hr
      rcases List.mem_append.1 hr with hr | hr
      · exact hacc r hr
      · exact collectFrom_some_bounds ntext (normalizeText w) _ 0 b hc r hr

theorem foldl_collectStep_isSome (ntext : Str) (ws : List Str)
    (h : ∀ w ∈ ws, normalizeText w ≠ []) :
    ∀ acc : List (Nat × Nat), ∃ ms, ws.foldl (collectStep ntext) (some acc) = some ms := by
  induction ws with
  | nil => intro acc; exact ⟨acc, rfl⟩
  | cons w t ih =>
    intro acc
    have hw := h w (List.mem_cons_self w t)
    have hs := collectFrom_isSome_of_ne_nil ntext (normalizeText w) hw
      (ntext.length + 1) 0 (by omega) (by omega)
    cases hc : collectFrom ntext (normalizeText w) 0 (ntext.length + 1) with
    | none =>
      rw [hc] at hs
      simp at hs
    | some b =>
      simp only [List.foldl_cons]
      rw [show collectStep ntext (some acc) w = some (acc ++ b) from by
        simp [collectStep, hc]]
      exact ih (fun x hx => h x (List.mem_cons_of_mem w hx)) (acc ++ b)

theorem foldl_collectStep_none_of_exists (ntext : Str) (ws : List Str)
    (h : ∃ w ∈ ws, normalizeText w = []) :
    ∀ acc : Option (List (Nat × Nat)), ws.foldl (collectStep ntext) acc = none := by
  induction ws with
  | nil =>
    rcases h with ⟨w, hw, _⟩
    simp at hw
  | cons w t ih =>
    intro acc
    rcases h with ⟨x, hx, hxe⟩
    rcases List.mem_cons.1 hx with rfl | hxt
    · simp only [List.foldl_cons]
      have hstep : collectStep ntext acc x = none := by
        cases acc with
        | none => rfl
        | some a => simp [collectStep, hxe, collectFrom_none_of_nil_needle]
      rw [hstep, foldl_collectStep_none]
    · simp only [List.foldl_cons]
      exact ih ⟨x, hxt, hxe⟩ _

theorem foldl_collectStep_some_nil (ntext : Str) (ws : List Str)
    (h : ∀ w ∈ ws, collectFrom ntext (normalizeText w) 0 (ntext.length + 1) = some []) :
    ws.foldl (collectStep ntext) (some []) = some [] := by
  induction ws with
  | nil => rfl
  | cons w t ih =>
    simp only [List.foldl_cons]
    rw [show collectStep ntext (some []) w = some [] from by
      simp [collectStep, h w (List.mem_cons_self w t)]]
    exact ih (fun x hx => h x (List.mem_cons_of_mem w hx))

theorem mergeStep_reverse (acc : List (Nat × Nat)) (m : Nat × Nat) :
    (mergeStep acc m).reverse = revStep acc.reverse m := by
  induction acc using List.reverseRecOn with
  | nil => simp [mergeStep, revStep]
  | append_singleton as a ih =>
    simp only [mergeStep, List.getLast?_concat, List.dropLast_concat, List.reverse_append,
      List.reverse_cons, List.reverse_nil, List.nil_append, List.cons_append, revStep]
    by_cases h : a.2 < m.1
    · rw [if_pos h, if_pos h]
      simp
    · rw [if_neg h, if_neg h]
      simp

theorem foldl_mergeStep_reverse (l : List (Nat × Nat)) (acc : List (Nat × Nat)) :
    (l.foldl mergeStep acc).reverse = l.foldl revStep acc.reverse := by
  induction l generalizing acc with
  | nil => simp
  | cons m t ih =>
    simp only [List.foldl_cons]
    rw [ih, mergeStep_reverse]

theorem mergeRanges_eq_rev (l : List (Nat × Nat)) :
    mergeRanges l = (l.foldl revStep []).reverse := by
  have h := foldl_mergeStep_reverse l []
  simp only [List.reverse_nil] at h
  rw [← h, List.reverse_reverse]
  rfl

theorem revfold_WF (len : Nat) :
    ∀ (l racc : List (Nat × Nat)),
      RevWF len racc →
      (∀ r ∈ l, r.1 ≤ r.2 ∧ r.2 ≤ len) →
      List.Pairwise (fun a b => a.1 ≤ b.1) l →
      (∀ r ∈ l, ∀ h, racc.head? = some h → h.1 ≤ r.1) →
      RevWF len (l.foldl revStep racc) := by
  intro l
  induction l with
  | nil =>
    intro racc hWF _ _ _
    exact hWF
  | cons m rest ih =>
    intro racc hWF hb hp hh
    rcases List.pairwise_cons.1 hp with ⟨hm_rest, hp_rest⟩
    have hm := hb m (List.mem_cons_self m rest)
    simp only [List.foldl_cons]
    have hb_rest : ∀ r ∈ rest, r.1 ≤ r.2 ∧ r.2 ≤ len :=
      fun r hr => hb r (List.mem_cons_of_mem m hr)
    cases racc with
    | nil =>
      apply ih [m] ⟨List.chain'_singleton m, by simpa using hm⟩ hb_rest hp_rest
      intro r hr h hhead
      simp only [revStep, List.head?_cons, Option.some.injEq] at hhead
      subst hhead
      exact hm_rest r hr
    | cons last rs =>
      rcases hWF with ⟨hchain, hbound⟩
      have hlast := hbound last (List.mem_cons_self last rs)
      by_cases hgap : last.2 < m.1
      · have hWF' : RevWF len (m :: last :: rs) := by
          constructor
          · exact List.chain'_cons.2 ⟨hgap, hchain⟩
          · intro r hr
            rcases List.mem_cons.1 hr with rfl | hr2
            · exact hm
            · exact hbound r hr2
        have hstep : revStep (last :: rs) m = m :: last :: rs := by
          simp only [revStep]
          rw [if_pos hgap]
        rw [hstep]
        apply ih _ hWF' hb_rest hp_rest
        intro r hr h hhead
        simp only [List.head?_cons, Option.some.injEq] at hhead
        subst hhead
        exact hm_rest r hr
      · have hstep : revStep (last :: rs) m = (last.1, max last.2 m.2) :: rs := by
          simp only [revStep]
          rw [if_neg hgap]
        rw [hstep]
        have hWF' : RevWF len ((last.1, max last.2 m.2) :: rs) := by
          constructor
          · rcases List.chain'_cons'.1 hchain with ⟨hhd, hchain_rs⟩
            apply List.chain'_cons'.2
            refine ⟨?_, hchain_rs⟩
            intro y hy
            exact hhd y hy
          · intro r hr
            rcases List.mem_cons.1 hr with rfl | hr2
            · constructor
              · simp only []
                omega
              · simp only []
                omega
            · exact hbound r (List.mem_cons_of_mem last hr2)
        apply ih _ hWF' hb_rest hp_rest
        intro r hr h hhead
        simp only [List.head?_cons, Option.some.injEq] at hhead
        subst hhead
        have hlm : last.1 ≤ m.1 := hh m (List.mem_cons_self m rest) last rfl
        have := hm_rest r hr
        simp only []
        omega

theorem mergeRanges_WF (len : Nat) (M : List (Nat × Nat))
    (hb : ∀ r ∈ M, r.1 ≤ r.2 ∧ r.2 ≤ len) :
    List.Chain' (fun a b => a.2 < b.1) (mergeRanges (sortRangesByStart M)) ∧
      ∀ r ∈ mergeRanges (sortRangesByStart M), r.1 ≤ r.2 ∧ r.2 ≤ len := by
  have hperm := sortByKey_perm (fun r : Nat × Nat => r.1) M
  have hb' : ∀ r ∈ sortRangesByStart M, r.1 ≤ r.2 ∧ r.2 ≤ len := by
    intro r hr
    exact hb r (hperm.mem_iff.1 hr)
  have hpair := sortByKey_pairwise (fun r : Nat × Nat => r.1) M
  have hWF := revfold_WF len (sortRangesByStart M) [] ⟨List.chain'_nil, by simp⟩ hb' hpair
    (by intro r hr h hhead; simp at hhead)
  rw [mergeRanges_eq_rev]
  rcases hWF with ⟨hchain, hbound⟩
  constructor
  · rw [List.chain'_reverse]
    exact hchain
  · intro r hr
    exact hbound r (List.mem_reverse.1 hr)

theorem jsSubstring_eq_of_le (text : Str) (a b : Nat) (hab : a ≤ b) (hb : b ≤ text.length) :
    jsSubstring text a b = (text.take b).drop a := by
  unfold jsSubstring
  have ha' : min a text.length = a := Nat.min_eq_left (le_trans hab hb)
  have hb' : min b text.length = b := Nat.min_eq_left hb
  rw [ha', hb', if_pos hab]

theorem drop_split (text : Str) (a b : Nat) (hab : a ≤ b) (hb : b ≤ text.length) :
    (text.take b).drop a ++ text.drop b = text.drop a := by
  conv_rhs => rw [← List.take_append_drop b text]
  rw [List.drop_append_eq_append_drop]
  have : (text.take b).length = b := by
    rw [List.length_take]
    omega
  rw [this]
  have : a - b = 0 := by omega
  rw [this, List.drop_zero]

theorem buildParts_concat (text : Str) :
    ∀ (ranges : List (Nat × Nat)) (lastEnd : Nat),
      List.Chain' (fun a b => a.2 < b.1) ranges →
      (∀ r ∈ ranges, r.1 ≤ r.2 ∧ r.2 ≤ text.length) →
      (∀ h, ranges.head? = some h → lastEnd ≤ h.1) →
      spansText (buildParts text ranges lastEnd) = text.drop lastEnd := by
  intro ranges
  induction ranges with
  | nil =>
    intro lastEnd _ _ _
    unfold buildParts
    by_cases h : lastEnd < text.length
    · rw [if_pos h]
      simp [spansText]
    · rw [if_neg h]
      have : text.drop lastEnd = [] := List.drop_eq_nil_of_le (by omega)
      rw [this]
      rfl
  | cons r rest ih =>
    obtain ⟨s, e⟩ := r
    intro lastEnd hchain hb hh
    rcases hb (s, e) (List.mem_cons_self _ _) with ⟨hse, hel⟩
    simp only at hse hel
    have hle : lastEnd ≤ s := hh (s, e) rfl
    rcases List.chain'_cons'.1 hchain with ⟨hhd, hchain_rest⟩
    have hb_rest : ∀ x ∈ rest, x.1 ≤ x.2 ∧ x.2 ≤ text.length :=
      fun x hx => hb x (List.mem_cons_of_mem _ hx)
    have hh_rest : ∀ h, rest.head? = some h → e ≤ h.1 := by
      intro h hhead
      have := hhd h hhead
      simp only at this
      omega
    have ihr := ih e hchain_rest hb_rest hh_rest
    unfold buildParts
    rw [spansText_append]
    have hmatch : spansText (⟨jsSubstring text s e, true⟩ :: buildParts text rest e) =
        jsSubstring text s e ++ spansText (buildParts text rest e) := by
      simp [spansText]
    rw [hmatch, ihr]
    rw [jsSubstring_eq_of_le text s e hse hel]
    by_cases hlt : lastEnd < s
    · rw [if_pos hlt]
      have h1 : spansText [⟨jsSubstring text lastEnd s, false⟩] = jsSubstring text lastEnd s := by
        simp [spansText]
      rw [h1, jsSubstring_eq_of_le text lastEnd s (by omega) (by omega)]
      rw [drop_split text s e hse hel]
      rw [drop_split text lastEnd s (by omega) (by omega)]
    · rw [if_neg hlt]
      have hls : lastEnd = s := by omega
      subst hls
      have h0 : spansText ([] : List Span) = [] := rfl
      rw [h0, List.nil_append]
      rw [drop_split text lastEnd e hse hel]

theorem nfd_filter_len (a : Nat) :
    ((nfdChar a).filter (fun d => !isCombining d)).length ≤ 1 := by
  by_cases h1 : a = 0x103
  · subst h1; decide
  · by_cases h2 : a = 0xE2
    · subst h2; decide
    · by_cases h3 : a = 0xEE
      · subst h3; decide
      · by_cases h4 : a = 0x15F
        · subst h4; decide
        · by_cases h5 : a = 0x163
          · subst h5; decide
          · by_cases h6 : a = 0x219
            · subst h6; decide
            · by_cases h7 : a = 0x21B
              · subst h7; decide
              · rw [nfdChar_eq_self a h1 h2 h3 h4 h5 h6 h7]
                exact le_trans (List.length_filter_le _ _) (by simp)

theorem normalizeText_length_le (s : Str) : (normalizeText s).length ≤ s.length := by
  induction s with
  | nil => simp [normalizeText]
  | cons c t ih =>
    rw [normalizeText_cons]
    rw [List.length_append]
    have := nfd_filter_len (jsToLower c)
    simp only [List.length_cons]
    omega

theorem concat_main (text : Str) (M : List (Nat × Nat))
    (hb : ∀ r ∈ M, r.1 ≤ r.2 ∧ r.2 ≤ text.length) :
    spansText (buildParts text (mergeRanges (sortRangesByStart M)) 0) = text := by
  rcases mergeRanges_WF text.length M hb with ⟨hchain, hbound⟩
  rw [buildParts_concat text _ 0 hchain hbound (by intro h _; omega)]
  simp

theorem highlightText_concat (text searchTerm : Str) (spans : List Span)
    (h : highlightText text searchTerm = some spans) :
    spansText spans = text := by
  simp only [highlightText] at h
  split at h
  · simp only [Option.some.injEq] at h
    subst h
    simp [spansText]
  · split at h
    · simp only [Option.some.injEq] at h
      subst h
      simp [spansText]
    · split at h
      · simp at h
      · rename_i ms hms
        split at h
        · simp only [Option.some.injEq] at h
          subst h
          simp [spansText]
        · simp only [Option.some.injEq] at h
          subst h
          apply concat_main
          intro r hr
          have hb := foldl_collectStep_some_bounds (normalizeText text)
            ((splitWs (jsTrim searchTerm)).filter (fun w => w.length > 0)) [] ms hms
            (by intro x hx; simp at hx) r hr
          have hl := normalizeText_length_le text
          exact ⟨hb.1, le_trans hb.2 hl⟩

theorem collectFrom_some_nil_of_no_occurrence (ntext nw : Str)
    (h : jsIncludes ntext nw = false) :
    collectFrom ntext nw 0 (ntext.length + 1) = some [] := by
  unfold collectFrom
  cases hidx : jsIndexOfFrom ntext nw 0 with
  | none => rfl
  | some i =>
    exfalso
    unfold jsIncludes at h
    rw [hidx] at h
    simp at h

theorem highlightText_empty_term (text : Str) :
    highlightText text [] = some [⟨text, false⟩] := by
  simp [highlightText]

theorem highlightText_no_occurrence (text searchTerm : Str)
    (h : ∀ w ∈ splitWs (jsTrim searchTerm),
      jsIncludes (normalizeText text) (normalizeText w) = false) :
    highlightText text searchTerm = some [⟨text, false⟩] := by
  simp only [highlightText]
  split
  · rfl
  · split
    · rfl
    · have hfold := foldl_collectStep_some_nil (normalizeText text)
        ((splitWs (jsTrim searchTerm)).filter (fun w => w.length > 0))
        (fun w hw => collectFrom_some_nil_of_no_occurrence _ _
          (h w (List.mem_of_mem_filter hw)))
      rw [hfold]
      rfl

theorem highlightText_total (text searchTerm : Str)
    (h : ∀ w ∈ splitWs (jsTrim searchTerm), normalizeText w ≠ []) :
    ∃ spans, highlightText text searchTerm = some spans := by
  by_cases h1 : searchTerm = [] ∨ text = []
  · exact ⟨[⟨text, false⟩], by simp [highlightText, h1]⟩
  · by_cases h2 : ((splitWs (jsTrim searchTerm)).filter (fun w => w.length > 0)).length = 0
    · exact ⟨[⟨text, false⟩], by simp [highlightText, h1, h2]⟩
    · rcases foldl_collectStep_isSome (normalizeText text)
        ((splitWs (jsTrim searchTerm)).filter (fun w => w.length > 0))
        (fun w hw => h w (List.mem_of_mem_filter hw)) [] with ⟨ms, hms⟩
      by_cases hnil : ms = []
      · refine ⟨[⟨text, false⟩], ?_⟩
        simp only [highlightText, if_neg h1, if_neg h2]
        rw [hms]
        show (if ms = [] then some [⟨text, false⟩]
          else some (buildParts text (mergeRanges (sortRangesByStart ms)) 0)) = _
        rw [if_pos hnil]
      · refine ⟨buildParts text (mergeRanges (sortRangesByStart ms)) 0, ?_⟩
        simp only [highlightText, if_neg h1, if_neg h2]
        rw [hms]
        show (if ms = [] then some [⟨text, false⟩]
          else some (buildParts text (mergeRanges (sortRangesByStart ms)) 0)) = _
        rw [if_neg hnil]

theorem highlightText_diverges (text searchTerm : Str)
    (htext : text ≠ []) (hterm : searchTerm ≠ [])
    (h : ∃ w ∈ (splitWs (jsTrim searchTerm)).filter (fun w => w.length > 0),
      normalizeText w = []) :
    highlightText text searchTerm = none := by
  have h1 : ¬(searchTerm = [] ∨ text = []) := by
    rintro (he | he) <;> contradiction
  have h2 : ¬(((splitWs (jsTrim searchTerm)).filter (fun w => w.length > 0)).length = 0) := by
    rcases h with ⟨w, hw, _⟩
    intro hlen
    rw [List.length_eq_zero] at hlen
    rw [hlen] at hw
    simp at hw
  simp only [highlightText, if_neg h1, if_neg h2]
  have hfold := foldl_collectStep_none_of_exists (normalizeText text)
    ((splitWs (jsTrim searchTerm)).filter (fun w => w.length > 0)) h (some [])
  rw [hfold]

theorem norm_char_len_one (c : Nat) (hc : isCombining c = false) :
    ((nfdChar (jsToLower c)).filter (fun d => !isCombining d)).length = 1 := by
  by_cases hA : 65 ≤ c ∧ c ≤ 90
  · have hl : jsToLower c = c + 32 := by simp [jsToLower, hA]
    rw [hl]
    have hnf : nfdChar (c + 32) = [c + 32] := by
      apply nfdChar_eq_self <;> omega
    rw [hnf]
    have hnc : isCombining (c + 32) = false := by
      simp only [isCombining, decide_eq_false_iff_not]
      omega
    simp [hnc]
  · by_cases e1 : c = 0x102
    · subst e1; decide
    · by_cases e2 : c = 0xC2
      · subst e2; decide
      · by_cases e3 : c = 0xCE
        · subst e3; decide
        · by_cases e4 : c = 0x15E
          · subst e4; decide
          · by_cases e5 : c = 0x162
            · subst e5; decide
            · by_cases e6 : c = 0x218
              · subst e6; decide
              · by_cases e7 : c = 0x21A
                · subst e7; decide
                · rw [jsToLower_eq_self c hA e1 e2 e3 e4 e5 e6 e7]
                  by_cases f1 : c = 0x103
                  · subst f1; decide
                  · by_cases f2 : c = 0xE2
                    · subst f2; decide
                    · by_cases f3 : c = 0xEE
                      · subst f3; decide
                      · by_cases f4 : c = 0x15F
                        · subst f4; decide
                        · by_cases f5 : c = 0x163
                          · subst f5; decide
                          · by_cases f6 : c = 0x219
                            · subst f6; decide
                            · by_cases f7 : c = 0x21B
                              · subst f7; decide
                              · rw [nfdChar_eq_self c f1 f2 f3 f4 f5 f6 f7]
                                simp [hc]

theorem normalizeText_length_of_no_marks (text : Str)
    (h : ∀ c ∈ text, isCombining c = false) :
    (normalizeText text).length = text.length := by
  induction text with
  | nil => rfl
  | cons c t ih =>
    rw [normalizeText_cons, List.length_append]
    rw [norm_char_len_one c (h c (List.mem_cons_self c t))]
    rw [ih (fun d hd => h d (List.mem_cons_of_mem c hd))]
    simp [Nat.add_comm]

theorem includeParentsAndChildren_self (d : List FlatRecord) :
    includeParentsAndChildren d d = sortByIndexInTree d := by
  by_cases hd : d.isEmpty
  · rw [List.isEmpty_iff] at hd
    subst hd
    simp [includeParentsAndChildren, sortByIndexInTree, sortByKey]
  · rw [includeParentsAndChildren_eq d d (by simpa using hd)]
    congr 1
    apply List.filter_eq_self.2
    intro a ha
    simp only [List.elem_eq_mem, decide_eq_true_eq]
    rw [mem_itemsToShowOf]
    exact ⟨a, ha, Or.inl rfl⟩

/-! ## The claims -/

/-- C1: for every flattened record set and matched subset produced by a
non-empty query in any search mode, the displayed result is the context
expansion: it is empty when the matched subset is empty, contains exactly
the records of the data whose id is a matched id, an id in a matched
record's ancestor chain, or the id of a record whose ancestor chain
contains a matched id (the full subtree), without duplication beyond the
data itself, sorted by `originalIndex` (`indexInTree`) ascending. -/
theorem claim_C1 :
    (∀ (d : List FlatRecord) (q : Str), jsTrim q ≠ [] →
        ∃ p : FlatRecord → Bool,
          filteredData d q = includeParentsAndChildren d (d.filter p)) ∧
    (∀ d : List FlatRecord, includeParentsAndChildren d [] = []) ∧
    (∀ (d m : List FlatRecord) (r : FlatRecord),
        r ∈ includeParentsAndChildren d m ↔
          r ∈ d ∧ ∃ mm ∈ m, (r.id = mm.id ∨ r.id ∈ mm.parentIds ∨
            ∃ c ∈ d, mm.id ∈ c.parentIds ∧ r.id = c.id)) ∧
    (∀ d m : List FlatRecord,
        List.Pairwise (fun a b => a.indexInTree ≤ b.indexInTree)
          (includeParentsAndChildren d m)) ∧
    (∀ (d m : List FlatRecord) (r : FlatRecord),
        (includeParentsAndChildren d m).count r ≤ d.count r) := by
  refine ⟨?_, includeParentsAndChildren_nil, ?_, includeParentsAndChildren_sorted,
    includeParentsAndChildren_count⟩
  · intro d q hq
    by_cases hE : (strStartsWith (jsTrim q) [34] && strEndsWith (jsTrim q) [34]) = true
    · rcases Bool.and_eq_true_iff.1 hE with ⟨h1, h2⟩
      exact ⟨_, filteredData_exact_branch d q h1 h2⟩
    · rw [Bool.not_eq_true] at hE
      by_cases hW : strEndsWith (jsTrim q) [42] = true
      · exact ⟨_, filteredData_wildcard_branch d q hE hW⟩
      · rw [Bool.not_eq_true] at hW
        by_cases hN : isAllDigits (removeWs (jsTrim q)) = true
        · exact ⟨_, filteredData_numeric_branch d q hE hW hN⟩
        · rw [Bool.not_eq_true] at hN
          exact ⟨_, filteredData_fuzzy_branch d q hq hE hW hN⟩
  · intro d m r
    rw [mem_includeParentsAndChildren]
    unfold wantedBy
    rfl

/-- Witness for C1: a concrete non-empty query and data set. -/
theorem claim_C1_witness :
    ∃ p : FlatRecord → Bool,
      filteredData [plainRec] (s2l "Scaune") =
        includeParentsAndChildren [plainRec] ([plainRec].filter p) :=
  claim_C1.1 [plainRec] (s2l "Scaune") (by decide)

/-- C2: when the trimmed query starts and ends with a double quote and is
longer than one character, the result is the context expansion of exactly
the records for which the normalized stripped phrase is a substring of one
of the three normalized name variants or of the normalized code; no other
matching (in particular no fuzzy matching) takes part. The quoted query
cai matches the name Cai, măgari and not Altele. -/
theorem claim_C2 :
    (∀ (d : List FlatRecord) (q : Str),
        (jsTrim q).length > 1 →
        strStartsWith (jsTrim q) [34] = true →
        strEndsWith (jsTrim q) [34] = true →
        filteredData d q = includeParentsAndChildren d
          (d.filter (exactMatch (normalizeText (((jsTrim q).drop 1).dropLast))))) ∧
    (∀ (p : Str) (item : FlatRecord),
        exactMatch p item = true ↔
          ((∃ pre post, normalizeText item.name_ro = pre ++ p ++ post) ∨
           (∃ pre post, normalizeText item.name_ru = pre ++ p ++ post) ∨
           (∃ pre post, normalizeText item.name_en = pre ++ p ++ post) ∨
           (∃ pre post, normalizeText item.nc = pre ++ p ++ post))) ∧
    filteredData [caiRec, alteleRec] (s2l "\"cai\"") = [caiRec] := by
  refine ⟨?_, ?_, by decide⟩
  · intro d q _ h1 h2
    exact filteredData_exact_branch d q h1 h2
  · intro p item
    unfold exactMatch
    simp only [Bool.or_eq_true, jsIncludes_iff, or_assoc]

/-- Witness for C2: the exact-phrase branch at a concrete quoted query. -/
theorem claim_C2_witness :
    filteredData [caiRec, alteleRec] (s2l "\"cai\"") =
      includeParentsAndChildren [caiRec, alteleRec]
        ([caiRec, alteleRec].filter (exactMatch
          (normalizeText (((jsTrim (s2l "\"cai\"")).drop 1).dropLast)))) :=
  claim_C2.1 [caiRec, alteleRec] (s2l "\"cai\"") (by decide) (by decide) (by decide)

/-- Counterexample for C3: a record whose NC code contains whitespace.  The
claim's matching condition (the normalized, whitespace-stripped code starts
with the prefix) holds, yet the engine displays nothing because the code
only strips whitespace from the query, never from the record's code. -/
theorem claim_C3_counterexample :
    strStartsWith (removeWs (normalizeText spacedNcRec.nc))
        (removeWs (normalizeText ((jsTrim (s2l "01*")).dropLast))) = true ∧
    filteredData [spacedNcRec] (s2l "01*") = [] := by decide

/-- C3 (amended): in wildcard mode the stripped prefix is normalized and
whitespace-stripped, but the record's code is only normalized (not
whitespace-stripped); a record matches iff its normalized code starts with
the prefix, and names are never consulted.  The query 0101* matches codes
0101 and 010121000 but not 0102. -/
theorem claim_C3 :
    (∀ (d : List FlatRecord) (q : Str),
        (strStartsWith (jsTrim q) [34] && strEndsWith (jsTrim q) [34]) = false →
        strEndsWith (jsTrim q) [42] = true →
        filteredData d q = includeParentsAndChildren d
          (d.filter (wildcardMatch (removeWs (normalizeText ((jsTrim q).dropLast)))))) ∧
    (∀ (p : Str) (item : FlatRecord),
        wildcardMatch p item = true ↔ ∃ t, normalizeText item.nc = p ++ t) ∧
    filteredData [nc0101Rec, nc010121000Rec, nc0102Rec] (s2l "0101*") =
      [nc0101Rec, nc010121000Rec] := by
  refine ⟨?_, ?_, by decide⟩
  · intro d q h1 h2
    exact filteredData_wildcard_branch d q h1 h2
  · intro p item
    unfold wildcardMatch
    exact strStartsWith_iff _ _

/-- Witness for C3: the wildcard branch at a concrete starred query. -/
theorem claim_C3_witness :
    filteredData [nc0101Rec] (s2l "0101*") =
      includeParentsAndChildren [nc0101Rec]
        ([nc0101Rec].filter (wildcardMatch
          (removeWs (normalizeText ((jsTrim (s2l "0101*")).dropLast))))) :=
  claim_C3.1 [nc0101Rec] (s2l "0101*") (by decide) (by decide)

/-- C4: when the exact-phrase and wildcard checks fail and the query with
whitespace removed is one or more decimal digits, a record is matched iff
its raw (unnormalized) code contains that digit string as a substring.
The query 0101 21 matches the code 010121000; 9999 matches nothing here. -/
theorem claim_C4 :
    (∀ (d : List FlatRecord) (q : Str),
        (strStartsWith (jsTrim q) [34] && strEndsWith (jsTrim q) [34]) = false →
        strEndsWith (jsTrim q) [42] = false →
        isAllDigits (removeWs (jsTrim q)) = true →
        filteredData d q = includeParentsAndChildren d
          (d.filter (numericMatch (removeWs (jsTrim q))))) ∧
    (∀ (p : Str) (item : FlatRecord),
        numericMatch p item = true ↔ ∃ pre post, item.nc = pre ++ p ++ post) ∧
    filteredData [nc010121000Rec] (s2l "0101 21") = [nc010121000Rec] ∧
    filteredData [nc010121000Rec] (s2l "9999") = [] := by
  refine ⟨?_, ?_, by decide, by decide⟩
  · intro d q h1 h2 h3
    exact filteredData_numeric_branch d q h1 h2 h3
  · intro p item
    unfold numericMatch
    exact jsIncludes_iff _ _

/-- Witness for C4: the numeric branch at a concrete digits-and-space query. -/
theorem claim_C4_witness :
    filteredData [nc010121000Rec] (s2l "0101 21") =
      includeParentsAndChildren [nc010121000Rec]
        ([nc010121000Rec].filter (numericMatch (removeWs (jsTrim (s2l "0101 21"))))) :=
  claim_C4.1 [nc010121000Rec] (s2l "0101 21") (by decide) (by decide) (by decide)

/-- C5: in the multi-word fallback mode the query is split on whitespace,
each word normalized, and a record matches iff every word is a substring of
at least one of its three normalized name variants; the code field takes no
part. The query wood bed matches the name wooden children's bed, while
bed metal does not. -/
theorem claim_C5 :
    (∀ (d : List FlatRecord) (q : Str), jsTrim q ≠ [] →
        (strStartsWith (jsTrim q) [34] && strEndsWith (jsTrim q) [34]) = false →
        strEndsWith (jsTrim q) [42] = false →
        isAllDigits (removeWs (jsTrim q)) = false →
        filteredData d q = includeParentsAndChildren d
          (d.filter (fuzzyMatch ((splitWs (jsTrim (jsTrim q))).map normalizeText)))) ∧
    (∀ (ws : List Str) (item : FlatRecord),
        fuzzyMatch ws item = true ↔ ∀ w ∈ ws,
          ((∃ pre post, normalizeText item.name_ro = pre ++ w ++ post) ∨
           (∃ pre post, normalizeText item.name_ru = pre ++ w ++ post) ∨
           (∃ pre post, normalizeText item.name_en = pre ++ w ++ post))) ∧
    filteredData [woodBedRec] (s2l "wood bed") = [woodBedRec] ∧
    filteredData [woodBedRec] (s2l "bed metal") = [] := by
  refine ⟨?_, ?_, by decide, by decide⟩
  · intro d q hq h1 h2 h3
    exact filteredData_fuzzy_branch d q hq h1 h2 h3
  · intro ws item
    unfold fuzzyMatch
    simp only [List.all_eq_true, Bool.or_eq_true, jsIncludes_iff, or_assoc]

/-- Witness for C5: the fallback branch at a concrete two-word query. -/
theorem claim_C5_witness :
    filteredData [woodBedRec] (s2l "wood bed") =
      includeParentsAndChildren [woodBedRec]
        ([woodBedRec].filter (fuzzyMatch
          ((splitWs (jsTrim (jsTrim (s2l "wood bed")))).map normalizeText))) :=
  claim_C5.1 [woodBedRec] (s2l "wood bed") (by decide) (by decide) (by decide) (by decide)

/-- C6: a query that trims to the empty string returns the whole record
set unchanged, in its original order, with no filtering and no context
expansion. -/
theorem claim_C6 (d : List FlatRecord) (q : Str) (h : jsTrim q = []) :
    filteredData d q = d :=
  filteredData_of_trim_nil d q h

/-- Witness for C6: a whitespace-only query. -/
theorem claim_C6_witness : filteredData [plainRec] (s2l "   ") = [plainRec] :=
  claim_C6 [plainRec] (s2l "   ") (by decide)

/-- Counterexample for C7: on a one-record data set the quote-only query
and the bare star query both return the full record set, not the empty
set the claim demands. -/
theorem claim_C7_counterexample :
    filteredData [plainRec] (s2l "\"\"") = [plainRec] ∧
    filteredData [plainRec] (s2l "*") = [plainRec] ∧
    filteredData [plainRec] (s2l "\"\"") ≠ [] := by decide

/-- C7 (amended): when the search term is empty after quote stripping or
wildcard stripping, the empty phrase or prefix matches every record, so the
engine returns the entire record set sorted by original tree order — a
select-all, not the empty set. -/
theorem claim_C7 (d : List FlatRecord) :
    filteredData d (s2l "\"\"") = sortByIndexInTree d ∧
    filteredData d (s2l "*") = sortByIndexInTree d := by
  constructor
  · rw [filteredData_exact_branch d (s2l "\"\"") (by decide) (by decide)]
    have hfil : d.filter (exactMatch
        (normalizeText (((jsTrim (s2l "\"\"")).drop 1).dropLast))) = d := by
      apply List.filter_eq_self.2
      intro a _
      have hp : normalizeText (((jsTrim (s2l "\"\"")).drop 1).dropLast) = [] := by decide
      rw [hp]
      unfold exactMatch
      simp [jsIncludes_nil_right]
    rw [hfil, includeParentsAndChildren_self]
  · rw [filteredData_wildcard_branch d (s2l "*") (by decide) (by decide)]
    have hfil : d.filter (wildcardMatch
        (removeWs (normalizeText ((jsTrim (s2l "*")).dropLast)))) = d := by
      apply List.filter_eq_self.2
      intro a _
      have hp : removeWs (normalizeText ((jsTrim (s2l "*")).dropLast)) = [] := by decide
      rw [hp]
      unfold wildcardMatch
      rw [strStartsWith_iff]
      exact ⟨normalizeText a.nc, by simp⟩
    rw [hfil, includeParentsAndChildren_self]

/-- C8: the flattener performs a pre-order depth-first traversal — the
spec's example tree yields ids 1, 2, 3 with depths 0, 1, 1, ancestor chains
[], [1], [1], original indices 0, 1, 2, and missing optional fields default
to the empty string or list — and every `parentIds` entry of every
flattened record refers to the id of a record strictly earlier in the
flattened sequence. -/
theorem claim_C8 :
    flattenTree [exTree] = [exRec1, exRec2, exRec3] ∧
    (∀ (data : List CategoryNode) (k : Nat), k < (flattenTree data).length →
      ∀ a ∈ ((flattenTree data).getD k emptyRec).parentIds,
        ∃ r ∈ (flattenTree data).take k, r.id = a) := by
  constructor
  · simp [flattenTree, flattenList, exTree, mkFlat, exRec1, exRec2, exRec3,
      CategoryNode.children, CategoryNode.id]
  · intro data k hk a ha
    rw [List.getD_eq_getElem _ _ hk] at ha
    exact flattenTree_inv data k hk a ha

/-- Witness for C8: record 2 of the example tree has ancestor id 1, and a
record with id 1 appears before it. -/
theorem claim_C8_witness : ∃ r ∈ (flattenTree [exTree]).take 1, r.id = 1 := by
  have h2 := claim_C8.2 [exTree]
  rw [claim_C8.1] at h2
  rw [claim_C8.1]
  exact h2 1 (by decide) 1 (by decide)

/-- Counterexample for C9: applying the normalizer to a null input raises
a TypeError (modeled as `Except.error`), it does not return the empty
string. -/
theorem claim_C9_counterexample :
    normalizeTextJS none = Except.error () ∧ normalizeTextJS none ≠ Except.ok [] := by
  constructor
  · rfl
  · intro h
    simp [normalizeTextJS] at h

/-- C9 (amended): the normalizer is idempotent, maps the empty string to
the empty string and identifies case and diacritic variants
(Cătălina and catalina normalize identically); on a string it never
raises, but a null input raises a TypeError rather than yielding the empty
string (its callers always pass strings). -/
theorem claim_C9 :
    (∀ s : Str, normalizeText (normalizeText s) = normalizeText s) ∧
    normalizeText [] = [] ∧
    normalizeText (s2l "Cătălina") = normalizeText (s2l "catalina") ∧
    (∀ s : Str, normalizeTextJS (some s) = Except.ok (normalizeText s)) ∧
    normalizeTextJS none = Except.error () :=
  ⟨normalizeText_idem, rfl, by decide, fun s => rfl, rfl⟩

/-- Counterexample for C10: a search word that is a bare combining mark
(code point 0x300, inside the modeled repertoire) survives word splitting
but normalizes to the empty string; on it the highlighter's indexOf loop
never sees -1 and runs forever, so the highlighter produces no spans at
all (modeled as `none`) — in particular no span decomposition whose
concatenation is the original text is returned. -/
theorem claim_C10_counterexample :
    splitWs (jsTrim [0x300]) = [[0x300]] ∧
    normalizeText [0x300] = [] ∧
    highlightText (s2l "abc") [0x300] = none := by decide

/-- C10 (amended): whenever the highlighter terminates it returns plain and
matched spans whose concatenation is exactly the original text; an empty
search term, or a term none of whose words occurs in the normalized text,
yields the whole input as one plain span; it terminates on every term none
of whose words normalizes to the empty string, and runs forever (returns
nothing) as soon as a surviving word normalizes to the empty string; on
text free of bare combining marks normalization preserves length, so the
offsets found in the normalized text delimit the same character positions
in the original; and highlighting cai in Cai, mă marks exactly Cai. -/
theorem claim_C10 :
    (∀ (text searchTerm : Str) (spans : List Span),
        highlightText text searchTerm = some spans →
        spansText spans = text) ∧
    (∀ text : Str, highlightText text [] = some [⟨text, false⟩]) ∧
    (∀ text searchTerm : Str,
        (∀ w ∈ splitWs (jsTrim searchTerm),
          jsIncludes (normalizeText text) (normalizeText w) = false) →
        highlightText text searchTerm = some [⟨text, false⟩]) ∧
    (∀ text searchTerm : Str,
        (∀ w ∈ splitWs (jsTrim searchTerm), normalizeText w ≠ []) →
        ∃ spans, highlightText text searchTerm = some spans) ∧
    (∀ text searchTerm : Str, text ≠ [] → searchTerm ≠ [] →
        (∃ w ∈ (splitWs (jsTrim searchTerm)).filter (fun w => w.length > 0),
          normalizeText w = []) →
        highlightText text searchTerm = none) ∧
    (∀ text : Str, (∀ c ∈ text, isCombining c = false) →
        (normalizeText text).length = text.length) ∧
    highlightText (s2l "Cai, mă") (s2l "cai") =
      some [⟨s2l "Cai", true⟩, ⟨s2l ", mă", false⟩] :=
  ⟨highlightText_concat, highlightText_empty_term, highlightText_no_occurrence,
    highlightText_total, highlightText_diverges, normalizeText_length_of_no_marks,
    by decide⟩

/-- Witness for C10: a term with no occurrence in the text yields a single
plain span. -/
theorem claim_C10_witness :
    highlightText (s2l "abc") (s2l "zz") = some [⟨s2l "abc", false⟩] :=
  claim_C10.2.2.1 (s2l "abc") (s2l "zz") (by decide)
